import Mathlib

/-!
Verification development for the signal bit-layout codec generator in
src/cantools/subparsers/generate_c_source.py.

The generator-side Python functions are embedded as pure Lean functions:
the segmentation loop of _signal_segments, the member selection of
_generate_signal, and the statement lists built by _format_encode_code and
_format_decode_code.  The C text emitted for one message (DEFINITION_FMT and
SIGN_EXTENSION_FMT) is embedded by its runtime semantics: byte buffers are
lists of naturals holding byte values, fixed-width C integers are their
nonnegative two's-complement bit patterns (a value of a width-N type is a
natural below 2 to the N; a C store into such a member truncates modulo
2 to the N), and struct records map member names to such patterns.
String formatting, identifier snake-casing and doc-comment assembly are
text-only concerns with no codec content and are abstracted to structured
values that keep every numeric field of the formatted statements.
-/

/-- Byte order of a signal, matching the strings big_endian and little_endian
compared in _signal_segments. -/
inductive ByteOrder where
  | big_endian
  | little_endian
deriving DecidableEq

/-- One segment produced by an iteration of the loop in _signal_segments,
before the shift is formatted: the destination byte index, the raw signed
shift amount, and the byte mask. -/
structure Segment where
  index : Nat
  shift : Int
  mask : Nat
deriving DecidableEq

/-- Input signal description, as read from the loaded database message.
The documentation-only metadata (minimum, maximum, scale, offset, unit,
comment) feeds only doc-comment text in _generate_signal and never the codec
logic, so it is omitted here. -/
structure Signal where
  name : String
  start : Nat
  length : Nat
  byte_order : ByteOrder
  is_signed : Bool
  is_float : Bool
  is_multiplexer : Bool
  multiplexer_ids : List Nat
deriving DecidableEq

/-- Input message description: name, numeric frame id, byte length, and the
ordered signal list. -/
structure Message where
  name : String
  frame_id : Nat
  length : Nat
  signals : List Signal
deriving DecidableEq

/-- A formatted shift operator: the strings << n and >> n interpolated into
the generated statements by _signal_segments. -/
inductive ShiftOp where
  | shl : Nat → ShiftOp
  | shr : Nat → ShiftOp
deriving DecidableEq

/-- Shift formatting at the bottom of the loop in _signal_segments: for the
decode direction (invert_shift true) a negative raw shift becomes << -shift
and a nonnegative one becomes >> shift; for the encode direction
(invert_shift false) the convention is mirrored. -/
def format_shift (invert_shift : Bool) (shift : Int) : ShiftOp :=
  if invert_shift then
    if shift < 0 then ShiftOp.shl (-shift).toNat else ShiftOp.shr shift.toNat
  else
    if shift < 0 then ShiftOp.shr (-shift).toNat else ShiftOp.shl shift.toNat

/-- Semantics of a formatted shift on a storage bit pattern.  On the
patterns and masked bit ranges produced by this generator the C arithmetic
right shift of a signed operand agrees with the logical shift used here,
because every bit surviving the subsequent byte mask originates below the
storage width. -/
def apply_shift (op : ShiftOp) (v : Nat) : Nat :=
  match op with
  | ShiftOp.shl n => v <<< n
  | ShiftOp.shr n => v >>> n

/-- Loop of _signal_segments, one constructor application per iteration of
the Python while loop; index, pos and left are the loop variables and total
is signal.length.  The fuel argument bounds the iteration count structurally:
on every reachable call pos < 8 holds, each iteration then consumes at least
one bit of left, and the top-level call passes fuel = left, which therefore
never runs out.  In the branches that finish the field the recursion is kept
verbatim (left - left = 0), mirroring left -= length before the loop exits. -/
def _signal_segments_loop (byte_order : ByteOrder) (total : Nat) :
    Nat → Nat → Nat → Nat → List Segment
  | 0, _, _, _ => []
  | fuel + 1, index, pos, left =>
    if left = 0 then
      []
    else
      match byte_order with
      | ByteOrder.big_endian =>
        if pos + 1 < left then
          { index := index, shift := -((left : Int) - (pos + 1)),
            mask := (1 <<< (pos + 1)) - 1 } ::
            _signal_segments_loop byte_order total fuel (index + 1) 7 (left - (pos + 1))
        else
          { index := index,
            shift := if 0 ≤ (pos : Int) - left then (pos : Int) - left + 1 else 8 - (left : Int),
            mask := ((1 <<< left) - 1) <<< (pos + 1 - left) } ::
            _signal_segments_loop byte_order total fuel (index + 1) pos (left - left)
      | ByteOrder.little_endian =>
        if 8 - pos ≤ left then
          { index := index, shift := ((left : Int) - total) + pos,
            mask := ((1 <<< (8 - pos)) - 1) <<< pos } ::
            _signal_segments_loop byte_order total fuel (index + 1) 0 (left - (8 - pos))
        else
          { index := index, shift := (pos : Int),
            mask := ((1 <<< left) - 1) <<< pos } ::
            _signal_segments_loop byte_order total fuel (index + 1) pos (left - left)

/-- Raw segments of one signal: the loop entered with index, pos = divmod
(signal.start, 8) and left = signal.length. -/
def signal_raw_segments (signal : Signal) : List Segment :=
  _signal_segments_loop signal.byte_order signal.length signal.length
    (signal.start / 8) (signal.start % 8) signal.length

/-- Translation of _signal_segments: the raw segments with the shift
formatted for the requested direction, yielded as (index, shift, mask). -/
def _signal_segments (signal : Signal) (invert_shift : Bool) : List (Nat × ShiftOp × Nat) :=
  (signal_raw_segments signal).map
    (fun g => (g.index, format_shift invert_shift g.shift, g.mask))

/-- Storage-type chain of _generate_signal (int8_t, int16_t, int32_t,
int64_t on length at most 8, 16, 32, 64), abstracted to the bit width;
none models the rejection of lengths over 64 bits. -/
def member_type_width (length : Nat) : Option Nat :=
  if length ≤ 8 then some 8
  else if length ≤ 16 then some 16
  else if length ≤ 32 then some 32
  else if length ≤ 64 then some 64
  else none

/-- Struct member emitted by _generate_signal for a retained signal.  The
formatted C declaration carries exactly the type (width plus the u prefix
when not signal.is_signed) and the member name; the camel_to_snake_case
normalization is a pure text transform and is not modelled. -/
structure Member where
  is_signed : Bool
  width : Nat
  name : String
deriving DecidableEq

def multiplexed_warning : String := "warning: Multiplexed signals are not yet supported."

def float_warning : String := "warning: Float signals are not yet supported."

def long_warning : String := "warning: Signal lengths over 64 bits are not yet supported."

/-- Translation of _generate_signal: the struct member for a supported
signal, or none plus exactly one printed warning for a rejected one.  The
doc-comment text assembled from the metadata (comment, minimum, maximum,
scale, offset, unit) is documentation-only and omitted. -/
def _generate_signal (signal : Signal) : Option Member × List String :=
  if signal.is_multiplexer || !signal.multiplexer_ids.isEmpty then
    (none, [multiplexed_warning])
  else if signal.is_float then
    (none, [float_warning])
  else
    match member_type_width signal.length with
    | some w => (some { is_signed := signal.is_signed, width := w, name := signal.name }, [])
    | none => (none, [long_warning])

/-- Members gathered by the signal loop of _generate_message: the non-none
results of _generate_signal, in declaration order. -/
def struct_members (message : Message) : List Member :=
  message.signals.filterMap (fun s => (_generate_signal s).fst)

/-- Warnings printed while generating one message, in signal order. -/
def signal_warnings (message : Message) : List String :=
  message.signals.flatMap (fun s => (_generate_signal s).snd)

/-- Accumulator-width chain at the top of the signal loop in
_format_decode_code.  The source chain has no branch for length over 64 (the
Python variable would keep a stale value there); this embedding returns 64 in
that case, which no claim exercises. -/
def decode_type_length (length : Nat) : Nat :=
  if length ≤ 8 then 8
  else if length ≤ 16 then 16
  else if length ≤ 32 then 32
  else 64

/-- Mask interpolated into SIGN_EXTENSION_FMT, as computed in
_format_decode_code: ones in bits length through type_length - 1. -/
def sign_extension_mask (length : Nat) : Nat :=
  ((1 <<< (decode_type_length length - length)) - 1) <<< length

/-- One generated decode statement.  assign name tl index mask op models
the formatted statement dst_p->name |= ((uint tl t)(src_p[index] & mask) op);
sign_extend name pos mask models the SIGN_EXTENSION_FMT conditional
if (dst_p->name & (1 << pos)) dst_p->name |= mask. -/
inductive DecodeLine where
  | assign : String → Nat → Nat → Nat → ShiftOp → DecodeLine
  | sign_extend : String → Nat → Nat → DecodeLine
deriving DecidableEq

/-- Signal name a decode statement writes to. -/
def decode_line_signal : DecodeLine → String
  | DecodeLine.assign n _ _ _ _ => n
  | DecodeLine.sign_extend n _ _ => n

/-- Decode statements emitted for one signal by the loop body of
_format_decode_code: one assign per segment (decode direction), then the
sign-extension conditional when signal.is_signed. -/
def signal_decode_lines (signal : Signal) : List DecodeLine :=
  ((_signal_segments signal true).map
    (fun g => DecodeLine.assign signal.name (decode_type_length signal.length) g.1 g.2.2 g.2.1))
  ++ (if signal.is_signed then
        [DecodeLine.sign_extend signal.name (signal.length - 1)
          (sign_extension_mask signal.length)]
      else [])

/-- Translation of _format_decode_code: the decode statements of every
signal of the message, in signal order.  The source iterates over all
message signals with no unsupported-signal filtering; the trailing
blank-line strip is cosmetic text handling with no structured counterpart. -/
def _format_decode_code (message : Message) : List DecodeLine :=
  message.signals.flatMap signal_decode_lines

/-- One generated encode statement: models
dst_p[index] |= ((src_p->signal_name op) & mask). -/
structure EncodeOp where
  index : Nat
  signal_name : String
  op : ShiftOp
  mask : Nat
deriving DecidableEq

/-- Encode statements of a message in signal order, before the per-byte
grouping of _format_encode_code.  The source iterates over all message
signals with no unsupported-signal filtering. -/
def encode_lines (message : Message) : List EncodeOp :=
  message.signals.flatMap (fun s =>
    (_signal_segments s false).map
      (fun g => { index := g.1, signal_name := s.name, op := g.2.1, mask := g.2.2 }))

/-- Translation of _format_encode_code: the statements regrouped by
ascending byte index (sorted(code_per_index)), keeping encounter order
within one byte. -/
def _format_encode_code (message : Message) : List EncodeOp :=
  let lines := encode_lines message
  let bound := lines.foldl (fun a l => max a l.index) 0 + 1
  (List.range bound).flatMap (fun i => lines.filter (fun l => l.index == i))

/-- Error result of the generated functions: the returned (-EINVAL). -/
inductive CodecError where
  | einval
deriving DecidableEq

deriving instance DecidableEq for Except

/-- Effect of one encode statement on the destination bytes; the source
record maps member names to storage bit patterns.  The OR into a byte stays
below 256 because every mask is a byte mask. -/
def apply_encode_line (record : String → Nat) (buffer : List Nat) (line : EncodeOp) :
    List Nat :=
  buffer.set line.index
    ((buffer.getD line.index 0) ||| (apply_shift line.op (record line.signal_name) &&& line.mask))

/-- Effect of one decode statement on the record under construction; a store
into a width-tl member truncates the pattern modulo 2 to the tl, and the
sign-extension conditional fires when the tested bit is set. -/
def apply_decode_line (buffer : List Nat) (record : String → Nat) :
    DecodeLine → (String → Nat)
  | DecodeLine.assign n tl i mask op =>
    Function.update record n
      ((record n ||| apply_shift op ((buffer.getD i 0) &&& mask)) % 2 ^ tl)
  | DecodeLine.sign_extend n pos mask =>
    Function.update record n
      (if record n &&& (1 <<< pos) ≠ 0 then record n ||| mask else record n)

/-- Semantics of the encode function emitted by DEFINITION_FMT: when the
destination capacity is below message.length return (-EINVAL) without
touching the destination, otherwise zero-fill the first message.length bytes
(memset), apply every encode statement, and succeed returning the written
region (the C function returns message.length). -/
def message_encode (message : Message) (record : String → Nat) (size : Nat) :
    Except CodecError (List Nat) :=
  if size < message.length then
    Except.error CodecError.einval
  else
    Except.ok ((_format_encode_code message).foldl (apply_encode_line record)
      (List.replicate message.length 0))

/-- Semantics of the decode function emitted by DEFINITION_FMT: when the
source length argument is below message.length return (-EINVAL) without
touching the record, otherwise zero-fill the record (memset), apply every
decode statement, and succeed (the C function returns 0). -/
def message_decode (message : Message) (buffer : List Nat) (size : Nat) :
    Except CodecError (String → Nat) :=
  if size < message.length then
    Except.error CodecError.einval
  else
    Except.ok ((_format_decode_code message).foldl (apply_decode_line buffer) (fun _ => 0))

/-- Pattern accumulated into a member by the assign statements of one
signal, starting from the zero-filled record. -/
def decode_acc (signal : Signal) (buffer : List Nat) : Nat :=
  (_signal_segments signal true).foldl
    (fun a g =>
      (a ||| apply_shift g.2.1 ((buffer.getD g.1 0) &&& g.2.2)) % 2 ^ decode_type_length signal.length)
    0

/-- Population count of a segment mask.  Every mask built by the segment
loop is a byte mask (below 256, proved in the C7 theorem), so eight bit
positions suffice. -/
def bit_count (mask : Nat) : Nat :=
  ((List.range 8).filter (fun j => mask.testBit j)).length

/-- Number of segments in a list that claim absolute bit n, read as bit
n % 8 of byte n / 8 of the message buffer. -/
def claim_count (segs : List Segment) (n : Nat) : Nat :=
  (segs.filter (fun g => g.index == n / 8 && g.mask.testBit (n % 8))).length

/-- Absolute bit position renumbered most-significant-bit-first within its
byte, the traversal order of big-endian fields. -/
def be_flip (n : Nat) : Nat := 8 * (n / 8) + (7 - n % 8)

/-- Bit range a field occupies under its byte-order convention: a
little-endian field covers [start, start + length) directly, a big-endian
field covers the positions whose msb-first renumbering lies in
[be_flip start, be_flip start + length). -/
def field_covers (signal : Signal) (n : Nat) : Prop :=
  match signal.byte_order with
  | ByteOrder.little_endian => signal.start ≤ n ∧ n < signal.start + signal.length
  | ByteOrder.big_endian =>
      be_flip signal.start ≤ be_flip n ∧ be_flip n < be_flip signal.start + signal.length

/-- Reading of a width-w storage pattern as a two's-complement C value. -/
def twos_complement (width pattern : Nat) : Int :=
  if pattern.testBit (width - 1) then (pattern : Int) - 2 ^ width else (pattern : Int)

/-- Little-endian unsigned 12-bit signal at start bit 0 (occupies byte 0 and
the low nibble of byte 1). -/
def sigA12 : Signal :=
  { name := "s", start := 0, length := 12, byte_order := ByteOrder.little_endian,
    is_signed := false, is_float := false, is_multiplexer := false, multiplexer_ids := [] }

/-- Two-byte message holding only sigA12. -/
def msg12 : Message := { name := "m1", frame_id := 1, length := 2, signals := [sigA12] }

/-- Record assigning the 12-bit pattern 0x100 to every member name. -/
def record12 : String → Nat := fun _ => 256

/-- Little-endian unsigned 12-bit signal named a at start bit 0. -/
def sigA3 : Signal :=
  { name := "a", start := 0, length := 12, byte_order := ByteOrder.little_endian,
    is_signed := false, is_float := false, is_multiplexer := false, multiplexer_ids := [] }

/-- Little-endian unsigned 4-bit signal named b at start bit 12. -/
def sigB3 : Signal :=
  { name := "b", start := 12, length := 4, byte_order := ByteOrder.little_endian,
    is_signed := false, is_float := false, is_multiplexer := false, multiplexer_ids := [] }

/-- Two-byte example message of the spec: fields a and b. -/
def msg3 : Message := { name := "m3", frame_id := 3, length := 2, signals := [sigA3, sigB3] }

/-- Example record of the spec: a = 0x0AB, b = 0xC. -/
def record3 : String → Nat :=
  fun n => if n == sigA3.name then 171 else if n == sigB3.name then 12 else 0

/-- Float-valued 32-bit signal named f (unsupported). -/
def sigF : Signal :=
  { name := "f", start := 0, length := 32, byte_order := ByteOrder.little_endian,
    is_signed := false, is_float := true, is_multiplexer := false, multiplexer_ids := [] }

/-- Plain 8-bit unsigned signal named g8 following sigF. -/
def sigG8 : Signal :=
  { name := "g8", start := 32, length := 8, byte_order := ByteOrder.little_endian,
    is_signed := false, is_float := false, is_multiplexer := false, multiplexer_ids := [] }

/-- Five-byte message with one float field and one integer field. -/
def msgFA : Message := { name := "mf", frame_id := 5, length := 5, signals := [sigF, sigG8] }

/-- Four-byte message whose only field is the unsupported float field. -/
def msgF : Message := { name := "mo", frame_id := 6, length := 4, signals := [sigF] }

/-- Little-endian signed 4-bit signal named x at start bit 0. -/
def sigS4 : Signal :=
  { name := "x", start := 0, length := 4, byte_order := ByteOrder.little_endian,
    is_signed := true, is_float := false, is_multiplexer := false, multiplexer_ids := [] }

/-- Little-endian signed 20-bit signal named y. -/
def sigS20 : Signal :=
  { name := "y", start := 0, length := 20, byte_order := ByteOrder.little_endian,
    is_signed := true, is_float := false, is_multiplexer := false, multiplexer_ids := [] }

/-- Big-endian unsigned 10-bit signal named z at start bit 6. -/
def sigBE10 : Signal :=
  { name := "z", start := 6, length := 10, byte_order := ByteOrder.big_endian,
    is_signed := false, is_float := false, is_multiplexer := false, multiplexer_ids := [] }

example : _signal_segments sigA12 false =
    [(0, ShiftOp.shl 0, 255), (1, ShiftOp.shl 0, 15)] := by decide

example : message_encode msg3 record3 2 = Except.ok [171, 203] := by decide

example : (message_decode msg3 [171, 203] 2).map (fun r => (r sigA3.name, r sigB3.name)) =
    Except.ok (171, 12) := by decide

example : message_encode msg12 record12 2 = Except.ok [0, 0] := by decide

example : _signal_segments sigBE10 false =
    [(0, ShiftOp.shr 3, 127), (1, ShiftOp.shl 5, 224)] := by decide

theorem segments_loop_left_zero (bo : ByteOrder) (total fuel index pos : Nat) :
    _signal_segments_loop bo total fuel index pos 0 = [] := by
  cases fuel <;> simp [_signal_segments_loop]

theorem segments_loop_be_full (total fuel index pos left : Nat) (hl : left ≠ 0)
    (hb : pos + 1 < left) :
    _signal_segments_loop ByteOrder.big_endian total (fuel + 1) index pos left =
      { index := index, shift := -((left : Int) - (pos + 1)), mask := (1 <<< (pos + 1)) - 1 } ::
        _signal_segments_loop ByteOrder.big_endian total fuel (index + 1) 7 (left - (pos + 1)) := by
  rw [_signal_segments_loop, if_neg hl]
  simp [hb]

theorem segments_loop_be_last (total fuel index pos left : Nat) (hl : left ≠ 0)
    (hb : ¬ pos + 1 < left) :
    _signal_segments_loop ByteOrder.big_endian total (fuel + 1) index pos left =
      [{ index := index,
         shift := if 0 ≤ (pos : Int) - left then (pos : Int) - left + 1 else 8 - (left : Int),
         mask := ((1 <<< left) - 1) <<< (pos + 1 - left) }] := by
  rw [_signal_segments_loop, if_neg hl]
  simp [hb, Nat.sub_self, segments_loop_left_zero]

theorem segments_loop_le_full (total fuel index pos left : Nat) (hl : left ≠ 0)
    (hb : 8 - pos ≤ left) :
    _signal_segments_loop ByteOrder.little_endian total (fuel + 1) index pos left =
      { index := index, shift := ((left : Int) - total) + pos,
        mask := ((1 <<< (8 - pos)) - 1) <<< pos } ::
        _signal_segments_loop ByteOrder.little_endian total fuel (index + 1) 0 (left - (8 - pos)) := by
  rw [_signal_segments_loop, if_neg hl]
  simp [hb]

theorem segments_loop_le_last (total fuel index pos left : Nat) (hl : left ≠ 0)
    (hb : ¬ 8 - pos ≤ left) :
    _signal_segments_loop ByteOrder.little_endian total (fuel + 1) index pos left =
      [{ index := index, shift := (pos : Int), mask := ((1 <<< left) - 1) <<< pos }] := by
  rw [_signal_segments_loop, if_neg hl]
  simp [hb, Nat.sub_self, segments_loop_left_zero]

theorem testBit_ones_shiftLeft (len off j : Nat) :
    ((((1 <<< len) - 1) <<< off).testBit j) = (decide (off ≤ j) && decide (j < off + len)) := by
  rw [Nat.one_shiftLeft, Nat.testBit_shiftLeft, Nat.testBit_two_pow_sub_one]
  rcases Nat.lt_or_ge j off with h | h
  · rw [decide_eq_false (by omega : ¬ j ≥ off), Bool.false_and, Bool.false_and]
  · rw [decide_eq_true (by omega : j ≥ off), Bool.true_and, Bool.true_and, decide_eq_decide]
    omega

theorem bit_count_ones_shiftLeft (off len : Nat) (h : off + len ≤ 8) :
    bit_count (((1 <<< len) - 1) <<< off) = len := by
  have ho : off ≤ 8 := by omega
  have hl : len ≤ 8 := by omega
  interval_cases off <;> interval_cases len <;> first | rfl | decide | omega

theorem ones_shiftLeft_lt (off len : Nat) (h : off + len ≤ 8) :
    ((1 <<< len) - 1) <<< off < 256 := by
  have ho : off ≤ 8 := by omega
  have hl : len ≤ 8 := by omega
  interval_cases off <;> interval_cases len <;> first | decide | omega

theorem claim_count_nil (n : Nat) : claim_count [] n = 0 := rfl

theorem claim_count_cons (g : Segment) (t : List Segment) (n : Nat) :
    claim_count (g :: t) n =
      (if (g.index == n / 8 && g.mask.testBit (n % 8)) = true then 1 else 0) + claim_count t n := by
  simp only [claim_count, List.filter_cons]
  split <;> simp [Nat.add_comm]

theorem segments_loop_index_lb (bo : ByteOrder) (total : Nat) :
    ∀ fuel index pos left g, g ∈ _signal_segments_loop bo total fuel index pos left →
      index ≤ g.index := by
  intro fuel
  induction fuel with
  | zero => intro index pos left g hg; simp [_signal_segments_loop] at hg
  | succ fuel ih =>
    intro index pos left g hg
    by_cases hl : left = 0
    · subst hl; rw [segments_loop_left_zero] at hg; simp at hg
    · cases bo with
      | big_endian =>
        by_cases hb : pos + 1 < left
        · rw [segments_loop_be_full total fuel index pos left hl hb] at hg
          rcases List.mem_cons.mp hg with rfl | hg
          · exact Nat.le_refl _
          · exact Nat.le_trans (Nat.le_succ _) (ih _ _ _ _ hg)
        · rw [segments_loop_be_last total fuel index pos left hl hb] at hg
          rcases List.mem_cons.mp hg with rfl | hg
          · exact Nat.le_refl _
          · simp at hg
      | little_endian =>
        by_cases hb : 8 - pos ≤ left
        · rw [segments_loop_le_full total fuel index pos left hl hb] at hg
          rcases List.mem_cons.mp hg with rfl | hg
          · exact Nat.le_refl _
          · exact Nat.le_trans (Nat.le_succ _) (ih _ _ _ _ hg)
        · rw [segments_loop_le_last total fuel index pos left hl hb] at hg
          rcases List.mem_cons.mp hg with rfl | hg
          · exact Nat.le_refl _
          · simp at hg

theorem segments_loop_index_nodup (bo : ByteOrder) (total : Nat) :
    ∀ fuel index pos left,
      ((_signal_segments_loop bo total fuel index pos left).map Segment.index).Nodup := by
  intro fuel
  induction fuel with
  | zero => intro index pos left; simp [_signal_segments_loop]
  | succ fuel ih =>
    intro index pos left
    by_cases hl : left = 0
    · subst hl; rw [segments_loop_left_zero]; simp
    · have hstep : ∀ (g : Segment) index2 pos2 left2, g.index = index → index2 = index + 1 →
          ((g :: _signal_segments_loop bo total fuel index2 pos2 left2).map Segment.index).Nodup := by
        intro g index2 pos2 left2 hgi hi2
        simp only [List.map_cons]
        refine List.nodup_cons.mpr ⟨?_, ih _ _ _⟩
        intro hmem
        rcases List.mem_map.mp hmem with ⟨a, ha, hai⟩
        have hlb := segments_loop_index_lb bo total fuel _ _ _ a ha
        omega
      cases bo with
      | big_endian =>
        by_cases hb : pos + 1 < left
        · rw [segments_loop_be_full total fuel index pos left hl hb]
          exact hstep _ _ _ _ rfl rfl
        · rw [segments_loop_be_last total fuel index pos left hl hb]
          simp
      | little_endian =>
        by_cases hb : 8 - pos ≤ left
        · rw [segments_loop_le_full total fuel index pos left hl hb]
          exact hstep _ _ _ _ rfl rfl
        · rw [segments_loop_le_last total fuel index pos left hl hb]
          simp

theorem claim_count_le_one (l : List Segment) (hnd : (l.map Segment.index).Nodup) (n : Nat) :
    claim_count l n ≤ 1 := by
  induction l with
  | nil => simp [claim_count_nil]
  | cons g t ih =>
    simp only [List.map_cons, List.nodup_cons] at hnd
    rw [claim_count_cons]
    by_cases hp : (g.index == n / 8 && g.mask.testBit (n % 8)) = true
    · have hidx : g.index = n / 8 := beq_iff_eq.mp ((Bool.and_eq_true _ _).mp hp).1
      have ht : claim_count t n = 0 := by
        simp only [claim_count, List.length_eq_zero]
        rw [List.filter_eq_nil_iff]
        intro a ha hpa
        have hai : a.index = n / 8 := beq_iff_eq.mp ((Bool.and_eq_true _ _).mp hpa).1
        exact hnd.1 (List.mem_map.mpr ⟨a, ha, by omega⟩)
      rw [if_pos hp, ht]
    · rw [if_neg hp, Nat.zero_add]
      exact ih hnd.2

theorem segments_loop_mask_lt (bo : ByteOrder) (total : Nat) :
    ∀ fuel index pos left, pos < 8 →
      ∀ g, g ∈ _signal_segments_loop bo total fuel index pos left → g.mask < 256 := by
  intro fuel
  induction fuel with
  | zero => intro index pos left h8 g hg; simp [_signal_segments_loop] at hg
  | succ fuel ih =>
    intro index pos left h8 g hg
    by_cases hl : left = 0
    · subst hl; rw [segments_loop_left_zero] at hg; simp at hg
    · cases bo with
      | big_endian =>
        by_cases hb : pos + 1 < left
        · rw [segments_loop_be_full total fuel index pos left hl hb] at hg
          rcases List.mem_cons.mp hg with rfl | hg
          · have := ones_shiftLeft_lt 0 (pos + 1) (by omega)
            rwa [Nat.shiftLeft_zero] at this
          · exact ih _ _ _ (by omega) g hg
        · rw [segments_loop_be_last total fuel index pos left hl hb] at hg
          rcases List.mem_cons.mp hg with rfl | hg
          · exact ones_shiftLeft_lt (pos + 1 - left) left (by omega)
          · simp at hg
      | little_endian =>
        by_cases hb : 8 - pos ≤ left
        · rw [segments_loop_le_full total fuel index pos left hl hb] at hg
          rcases List.mem_cons.mp hg with rfl | hg
          · exact ones_shiftLeft_lt pos (8 - pos) (by omega)
          · exact ih _ _ _ (by omega) g hg
        · rw [segments_loop_le_last total fuel index pos left hl hb] at hg
          rcases List.mem_cons.mp hg with rfl | hg
          · exact ones_shiftLeft_lt pos left (by omega)
          · simp at hg

theorem segments_loop_bit_count_sum (bo : ByteOrder) (total : Nat) :
    ∀ fuel index pos left, pos < 8 → left ≤ fuel →
      ((_signal_segments_loop bo total fuel index pos left).map (fun g => bit_count g.mask)).sum
        = left := by
  intro fuel
  induction fuel with
  | zero =>
    intro index pos left h8 hf
    have h0 : left = 0 := Nat.le_zero.mp hf
    subst h0
    simp [_signal_segments_loop]
  | succ fuel ih =>
    intro index pos left h8 hf
    by_cases hl : left = 0
    · subst hl; rw [segments_loop_left_zero]; rfl
    · cases bo with
      | big_endian =>
        by_cases hb : pos + 1 < left
        · rw [segments_loop_be_full total fuel index pos left hl hb]
          simp only [List.map_cons, List.sum_cons]
          rw [ih (index + 1) 7 (left - (pos + 1)) (by omega) (by omega)]
          have hbc : bit_count ((1 <<< (pos + 1)) - 1) = pos + 1 := by
            have := bit_count_ones_shiftLeft 0 (pos + 1) (by omega)
            rwa [Nat.shiftLeft_zero] at this
          rw [hbc]
          omega
        · rw [segments_loop_be_last total fuel index pos left hl hb]
          simp only [List.map_cons, List.sum_cons, List.map_nil, List.sum_nil]
          rw [bit_count_ones_shiftLeft (pos + 1 - left) left (by omega)]
          omega
      | little_endian =>
        by_cases hb : 8 - pos ≤ left
        · rw [segments_loop_le_full total fuel index pos left hl hb]
          simp only [List.map_cons, List.sum_cons]
          rw [ih (index + 1) 0 (left - (8 - pos)) (by omega) (by omega)]
          rw [bit_count_ones_shiftLeft pos (8 - pos) (by omega)]
          omega
        · rw [segments_loop_le_last total fuel index pos left hl hb]
          simp only [List.map_cons, List.sum_cons, List.map_nil, List.sum_nil]
          rw [bit_count_ones_shiftLeft pos left (by omega)]
          omega

theorem segments_loop_le_cover (total : Nat) :
    ∀ fuel index pos left, pos < 8 → left ≤ fuel → ∀ n,
      (0 < claim_count (_signal_segments_loop ByteOrder.little_endian total fuel index pos left) n
        ↔ 8 * index + pos ≤ n ∧ n < 8 * index + pos + left) := by
  intro fuel
  induction fuel with
  | zero =>
    intro index pos left h8 hf n
    have h0 : left = 0 := Nat.le_zero.mp hf
    subst h0
    simp only [_signal_segments_loop, claim_count_nil]
    omega
  | succ fuel ih =>
    intro index pos left h8 hf n
    by_cases hl : left = 0
    · subst hl
      rw [segments_loop_left_zero]
      simp only [claim_count_nil]
      omega
    · by_cases hb : 8 - pos ≤ left
      · rw [segments_loop_le_full total fuel index pos left hl hb, claim_count_cons]
        have hhead :
            ((index == n / 8 && (((1 <<< (8 - pos)) - 1) <<< pos).testBit (n % 8)) = true)
              ↔ (8 * index + pos ≤ n ∧ n < 8 * index + 8) := by
          rw [Bool.and_eq_true, beq_iff_eq, testBit_ones_shiftLeft, Bool.and_eq_true,
            decide_eq_true_eq, decide_eq_true_eq]
          omega
        have hrest := ih (index + 1) 0 (left - (8 - pos)) (by omega) (by omega) n
        constructor
        · intro hp
          by_cases hpred :
              (index == n / 8 && (((1 <<< (8 - pos)) - 1) <<< pos).testBit (n % 8)) = true
          · have := hhead.mp hpred
            omega
          · rw [if_neg hpred, Nat.zero_add] at hp
            have := hrest.mp hp
            omega
        · intro hn
          by_cases hcase : n < 8 * index + 8
          · rw [if_pos (hhead.mpr ⟨hn.1, hcase⟩)]
            omega
          · have := hrest.mpr (by omega)
            omega
      · rw [segments_loop_le_last total fuel index pos left hl hb, claim_count_cons,
          claim_count_nil]
        have hhead :
            ((index == n / 8 && (((1 <<< left) - 1) <<< pos).testBit (n % 8)) = true)
              ↔ (8 * index + pos ≤ n ∧ n < 8 * index + pos + left) := by
          rw [Bool.and_eq_true, beq_iff_eq, testBit_ones_shiftLeft, Bool.and_eq_true,
            decide_eq_true_eq, decide_eq_true_eq]
          omega
        constructor
        · intro hp
          by_cases hpred : (index == n / 8 && (((1 <<< left) - 1) <<< pos).testBit (n % 8)) = true
          · exact hhead.mp hpred
          · rw [if_neg hpred] at hp
            omega
        · intro hn
          rw [if_pos (hhead.mpr hn)]
          omega

theorem segments_loop_be_cover (total : Nat) :
    ∀ fuel index pos left, pos < 8 → left ≤ fuel → ∀ n,
      (0 < claim_count (_signal_segments_loop ByteOrder.big_endian total fuel index pos left) n
        ↔ 8 * index + (7 - pos) ≤ be_flip n ∧ be_flip n < 8 * index + (7 - pos) + left) := by
  intro fuel
  induction fuel with
  | zero =>
    intro index pos left h8 hf n
    have h0 : left = 0 := Nat.le_zero.mp hf
    subst h0
    simp only [_signal_segments_loop, claim_count_nil, be_flip]
    omega
  | succ fuel ih =>
    intro index pos left h8 hf n
    by_cases hl : left = 0
    · subst hl
      rw [segments_loop_left_zero]
      simp only [claim_count_nil, be_flip]
      omega
    · by_cases hb : pos + 1 < left
      · rw [segments_loop_be_full total fuel index pos left hl hb, claim_count_cons]
        have hmaskbit := testBit_ones_shiftLeft (pos + 1) 0 (n % 8)
        rw [Nat.shiftLeft_zero] at hmaskbit
        have hhead : ((index == n / 8 && ((1 <<< (pos + 1)) - 1).testBit (n % 8)) = true)
            ↔ (8 * index + (7 - pos) ≤ be_flip n ∧ be_flip n < 8 * index + 8) := by
          rw [Bool.and_eq_true, beq_iff_eq, hmaskbit, Bool.and_eq_true,
            decide_eq_true_eq, decide_eq_true_eq]
          simp only [be_flip]
          omega
        have hrest := ih (index + 1) 7 (left - (pos + 1)) (by omega) (by omega) n
        constructor
        · intro hp
          by_cases hpred : (index == n / 8 && ((1 <<< (pos + 1)) - 1).testBit (n % 8)) = true
          · have := hhead.mp hpred
            omega
          · rw [if_neg hpred, Nat.zero_add] at hp
            have := hrest.mp hp
            omega
        · intro hn
          by_cases hcase : be_flip n < 8 * index + 8
          · rw [if_pos (hhead.mpr ⟨hn.1, hcase⟩)]
            omega
          · have := hrest.mpr (by omega)
            omega
      · rw [segments_loop_be_last total fuel index pos left hl hb, claim_count_cons,
          claim_count_nil]
        have hhead :
            ((index == n / 8 && (((1 <<< left) - 1) <<< (pos + 1 - left)).testBit (n % 8)) = true)
              ↔ (8 * index + (7 - pos) ≤ be_flip n ∧ be_flip n < 8 * index + (7 - pos) + left) := by
          rw [Bool.and_eq_true, beq_iff_eq, testBit_ones_shiftLeft, Bool.and_eq_true,
            decide_eq_true_eq, decide_eq_true_eq]
          simp only [be_flip]
          omega
        constructor
        · intro hp
          by_cases hpred :
              (index == n / 8 && (((1 <<< left) - 1) <<< (pos + 1 - left)).testBit (n % 8)) = true
          · exact hhead.mp hpred
          · rw [if_neg hpred] at hp
            omega
        · intro hn
          rw [if_pos (hhead.mpr hn)]
          omega

theorem segments_loop_fuel_stable (bo : ByteOrder) (total : Nat) :
    ∀ fuel fuel2 index pos left, pos < 8 → left ≤ fuel → left ≤ fuel2 →
      _signal_segments_loop bo total fuel index pos left
        = _signal_segments_loop bo total fuel2 index pos left := by
  intro fuel
  induction fuel with
  | zero =>
    intro fuel2 index pos left h8 hf hf2
    have h0 : left = 0 := Nat.le_zero.mp hf
    subst h0
    rw [segments_loop_left_zero, segments_loop_left_zero]
  | succ fuel ih =>
    intro fuel2 index pos left h8 hf hf2
    by_cases hl : left = 0
    · subst hl
      rw [segments_loop_left_zero, segments_loop_left_zero]
    · obtain ⟨fuel3, rfl⟩ : ∃ k, fuel2 = k + 1 := by
        cases fuel2 with
        | zero => omega
        | succ k => exact ⟨k, rfl⟩
      cases bo with
      | big_endian =>
        by_cases hb : pos + 1 < left
        · rw [segments_loop_be_full total fuel index pos left hl hb,
            segments_loop_be_full total fuel3 index pos left hl hb,
            ih fuel3 (index + 1) 7 (left - (pos + 1)) (by omega) (by omega) (by omega)]
        · rw [segments_loop_be_last total fuel index pos left hl hb,
            segments_loop_be_last total fuel3 index pos left hl hb]
      | little_endian =>
        by_cases hb : 8 - pos ≤ left
        · rw [segments_loop_le_full total fuel index pos left hl hb,
            segments_loop_le_full total fuel3 index pos left hl hb,
            ih fuel3 (index + 1) 0 (left - (8 - pos)) (by omega) (by omega) (by omega)]
        · rw [segments_loop_le_last total fuel index pos left hl hb,
            segments_loop_le_last total fuel3 index pos left hl hb]

theorem segments_loop_length_le (bo : ByteOrder) (total : Nat) :
    ∀ fuel index pos left, pos < 8 → left ≤ fuel →
      (_signal_segments_loop bo total fuel index pos left).length ≤ left := by
  intro fuel
  induction fuel with
  | zero =>
    intro index pos left h8 hf
    have h0 : left = 0 := Nat.le_zero.mp hf
    subst h0
    rw [segments_loop_left_zero]
    exact Nat.le_refl 0
  | succ fuel ih =>
    intro index pos left h8 hf
    by_cases hl : left = 0
    · subst hl
      rw [segments_loop_left_zero]
      exact Nat.le_refl 0
    · cases bo with
      | big_endian =>
        by_cases hb : pos + 1 < left
        · rw [segments_loop_be_full total fuel index pos left hl hb]
          simp only [List.length_cons]
          have := ih (index + 1) 7 (left - (pos + 1)) (by omega) (by omega)
          omega
        · rw [segments_loop_be_last total fuel index pos left hl hb]
          simp only [List.length_cons, List.length_nil]
          omega
      | little_endian =>
        by_cases hb : 8 - pos ≤ left
        · rw [segments_loop_le_full total fuel index pos left hl hb]
          simp only [List.length_cons]
          have := ih (index + 1) 0 (left - (8 - pos)) (by omega) (by omega)
          omega
        · rw [segments_loop_le_last total fuel index pos left hl hb]
          simp only [List.length_cons, List.length_nil]
          omega

theorem segments_loop_ne_nil (bo : ByteOrder) (total fuel index pos left : Nat)
    (hl : left ≠ 0) :
    _signal_segments_loop bo total (fuel + 1) index pos left ≠ [] := by
  cases bo with
  | big_endian =>
    by_cases hb : pos + 1 < left
    · rw [segments_loop_be_full total fuel index pos left hl hb]
      simp
    · rw [segments_loop_be_last total fuel index pos left hl hb]
      simp
  | little_endian =>
    by_cases hb : 8 - pos ≤ left
    · rw [segments_loop_le_full total fuel index pos left hl hb]
      simp
    · rw [segments_loop_le_last total fuel index pos left hl hb]
      simp

theorem foldl_assign_lines (buffer : List Nat) (nm : String) (tl : Nat)
    (segs : List (Nat × ShiftOp × Nat)) :
    ∀ record : String → Nat,
      ((segs.map (fun g => DecodeLine.assign nm tl g.1 g.2.2 g.2.1)).foldl
          (apply_decode_line buffer) record)
        = Function.update record nm
            (segs.foldl
              (fun a g => (a ||| apply_shift g.2.1 ((buffer.getD g.1 0) &&& g.2.2)) % 2 ^ tl)
              (record nm)) := by
  induction segs with
  | nil =>
    intro record
    simp [Function.update_eq_self]
  | cons g t ih =>
    intro record
    simp only [List.map_cons, List.foldl_cons, apply_decode_line]
    rw [ih, Function.update_same, Function.update_idem]

theorem and_one_shiftLeft_ne_zero (x k : Nat) : (x &&& (1 <<< k) ≠ 0) ↔ x.testBit k := by
  rw [Nat.one_shiftLeft, Nat.and_two_pow]
  cases h : x.testBit k <;> simp [h]

theorem foldl_encode_length (record : String → Nat) (lines : List EncodeOp) :
    ∀ buffer : List Nat,
      (lines.foldl (apply_encode_line record) buffer).length = buffer.length := by
  induction lines with
  | nil => intro buffer; rfl
  | cons l t ih =>
    intro buffer
    rw [List.foldl_cons, ih]
    simp [apply_encode_line]

theorem member_type_width_eq (length : Nat) (h64 : length ≤ 64) :
    member_type_width length = some (decode_type_length length) := by
  unfold member_type_width decode_type_length
  by_cases h8 : length ≤ 8
  · rw [if_pos h8, if_pos h8]
  · rw [if_neg h8, if_neg h8]
    by_cases h16 : length ≤ 16
    · rw [if_pos h16, if_pos h16]
    · rw [if_neg h16, if_neg h16]
      by_cases h32 : length ≤ 32
      · rw [if_pos h32, if_pos h32]
      · rw [if_neg h32, if_neg h32, if_pos h64]

theorem decode_type_length_spec (length : Nat) (h64 : length ≤ 64) :
    decode_type_length length ∈ [8, 16, 32, 64]
    ∧ length ≤ decode_type_length length
    ∧ ∀ w ∈ [8, 16, 32, 64], length ≤ w → decode_type_length length ≤ w := by
  refine ⟨?_, ?_, ?_⟩
  · unfold decode_type_length
    split_ifs <;> simp
  · unfold decode_type_length
    split_ifs <;> omega
  · intro w hw hlw
    fin_cases hw <;> (unfold decode_type_length ; split_ifs <;> omega)

/-- C7: for every field with bitLength in [1, 64] and any nonnegative start
bit, the segments of _signal_segments have bit counts summing exactly to
bitLength, every mask is a byte mask, the masked bit positions are pairwise
disjoint (no absolute bit is claimed by two segments), and the claimed bits
cover exactly the range [startBit, startBit + bitLength) mapped through the
byte-order convention of the field. -/
theorem C7_segment_coverage (s : Signal) (h1 : 1 ≤ s.length) (h64 : s.length ≤ 64) :
    (((signal_raw_segments s).map (fun g => bit_count g.mask)).sum = s.length)
    ∧ (∀ g ∈ signal_raw_segments s, g.mask < 256)
    ∧ (∀ n, claim_count (signal_raw_segments s) n ≤ 1)
    ∧ (∀ n, 0 < claim_count (signal_raw_segments s) n ↔ field_covers s n) := by
  have hpos : s.start % 8 < 8 := Nat.mod_lt _ (by omega)
  refine ⟨?_, ?_, ?_, ?_⟩
  · exact segments_loop_bit_count_sum s.byte_order s.length s.length (s.start / 8)
      (s.start % 8) s.length hpos (Nat.le_refl _)
  · intro g hg
    exact segments_loop_mask_lt s.byte_order s.length s.length (s.start / 8) (s.start % 8)
      s.length hpos g hg
  · intro n
    exact claim_count_le_one _ (segments_loop_index_nodup s.byte_order s.length s.length _ _ _) n
  · intro n
    unfold signal_raw_segments field_covers
    cases hbo : s.byte_order with
    | big_endian =>
      have hc := segments_loop_be_cover s.length s.length (s.start / 8) (s.start % 8)
        s.length hpos (Nat.le_refl _) n
      simpa only [be_flip] using hc
    | little_endian =>
      have hc := segments_loop_le_cover s.length s.length (s.start / 8) (s.start % 8)
        s.length hpos (Nat.le_refl _) n
      have harith : 8 * (s.start / 8) + s.start % 8 = s.start := by omega
      rw [harith] at hc
      exact hc

/-- Witness for C7 at the big-endian 10-bit field sigBE10 starting at bit 6,
with the coverage facts instantiated at absolute bit 3. -/
theorem C7_segment_coverage_witness :
    (1 ≤ sigBE10.length ∧ sigBE10.length ≤ 64)
    ∧ ((signal_raw_segments sigBE10).map (fun g => bit_count g.mask)).sum = 10
    ∧ claim_count (signal_raw_segments sigBE10) 3 ≤ 1
    ∧ (0 < claim_count (signal_raw_segments sigBE10) 3 ↔ field_covers sigBE10 3) := by
  have h := C7_segment_coverage sigBE10 (by decide) (by decide)
  exact ⟨⟨by decide, by decide⟩, h.1, h.2.2.1 3, h.2.2.2 3⟩

/-- C10: for every signal with bitLength at least 1 the segmentation loop
terminates: it yields at least one and at most bitLength segments (each
iteration consumes at least one bit), and the result is unchanged by any
extra fuel, so the embedded loop computes the fixpoint of the source loop. -/
theorem C10_segmenter_terminates (s : Signal) (invert_shift : Bool) (h1 : 1 ≤ s.length) :
    1 ≤ (_signal_segments s invert_shift).length
    ∧ (_signal_segments s invert_shift).length ≤ s.length
    ∧ (∀ extra : Nat,
        _signal_segments_loop s.byte_order s.length (s.length + extra) (s.start / 8)
            (s.start % 8) s.length
          = signal_raw_segments s) := by
  have hpos : s.start % 8 < 8 := Nat.mod_lt _ (by omega)
  have hlen : (_signal_segments s invert_shift).length = (signal_raw_segments s).length := by
    unfold _signal_segments
    exact List.length_map _ _
  refine ⟨?_, ?_, ?_⟩
  · rw [hlen]
    have hne : signal_raw_segments s ≠ [] := by
      unfold signal_raw_segments
      obtain ⟨k, hk⟩ : ∃ k, s.length = k + 1 := ⟨s.length - 1, by omega⟩
      rw [hk]
      exact segments_loop_ne_nil _ _ _ _ _ _ (by omega)
    exact List.length_pos.mpr hne
  · rw [hlen]
    exact segments_loop_length_le s.byte_order s.length s.length _ _ _ hpos (Nat.le_refl _)
  · intro extra
    exact segments_loop_fuel_stable s.byte_order s.length (s.length + extra) s.length _ _ _
      hpos (by omega) (Nat.le_refl _)

/-- Witness for C10 at sigBE10 with five units of extra fuel. -/
theorem C10_segmenter_terminates_witness :
    1 ≤ sigBE10.length
    ∧ 1 ≤ (_signal_segments sigBE10 true).length
    ∧ (_signal_segments sigBE10 true).length ≤ sigBE10.length
    ∧ _signal_segments_loop sigBE10.byte_order sigBE10.length (sigBE10.length + 5)
        (sigBE10.start / 8) (sigBE10.start % 8) sigBE10.length = signal_raw_segments sigBE10 := by
  have h := C10_segmenter_terminates sigBE10 true (by decide)
  exact ⟨by decide, h.1, h.2.1, h.2.2 5⟩

/-- C6: every retained field (not multiplexed, not float, bitLength at most
64) gets the smallest storage width among 8, 16, 32, 64 that is at least
bitLength, signed exactly when the signal is signed; the emitted member
width coincides with decode_type_length, the accumulator width used by the
decode statements of signal_decode_lines. -/
theorem C6_storage_type (s : Signal) (hm : s.is_multiplexer = false)
    (hids : s.multiplexer_ids = []) (hf : s.is_float = false) (h64 : s.length ≤ 64) :
    _generate_signal s =
      (some { is_signed := s.is_signed, width := decode_type_length s.length, name := s.name }, [])
    ∧ decode_type_length s.length ∈ [8, 16, 32, 64]
    ∧ s.length ≤ decode_type_length s.length
    ∧ (∀ w ∈ [8, 16, 32, 64], s.length ≤ w → decode_type_length s.length ≤ w) := by
  have hspec := decode_type_length_spec s.length h64
  refine ⟨?_, hspec.1, hspec.2.1, hspec.2.2⟩
  unfold _generate_signal
  rw [hm, hids, hf, member_type_width_eq s.length h64]
  rfl

/-- Witness for C6 at the signed 20-bit signal sigS20, whose storage width
is 32. -/
theorem C6_storage_type_witness :
    (sigS20.is_multiplexer = false ∧ sigS20.is_float = false ∧ sigS20.length ≤ 64)
    ∧ _generate_signal sigS20 = (some { is_signed := true, width := 32, name := sigS20.name }, [])
    ∧ sigS20.length ≤ decode_type_length sigS20.length
    ∧ decode_type_length sigS20.length = 32 := by
  have h := C6_storage_type sigS20 (by decide) (by decide) (by decide) (by decide)
  exact ⟨⟨by decide, by decide, by decide⟩, h.1, h.2.2.1, by decide⟩

/-- C5: for every field of supported length, the decode statements of the
field accumulate decode_acc into the member and then, exactly when the
signal is signed and bit bitLength - 1 of the accumulator is set, OR in
sign_extension_mask, the mask with ones from bit bitLength through the
storage width; unsigned fields are left at the bare accumulator, and a field
whose bitLength equals its storage width has an all-zero extension mask.
Instantiated at a 4-bit signed field, stored pattern 1111 decodes to the
two's-complement value -1 and 0111 to 7 in the 8-bit storage type (see the
witness). -/
theorem C5_sign_extension (s : Signal) (buffer : List Nat) (h1 : 1 ≤ s.length)
    (h64 : s.length ≤ 64) :
    (((signal_decode_lines s).foldl (apply_decode_line buffer) (fun _ => 0)) s.name
      = if s.is_signed = true ∧ (decode_acc s buffer).testBit (s.length - 1)
        then decode_acc s buffer ||| sign_extension_mask s.length
        else decode_acc s buffer)
    ∧ (s.is_signed = false →
        ((signal_decode_lines s).foldl (apply_decode_line buffer) (fun _ => 0)) s.name
          = decode_acc s buffer)
    ∧ (s.length = decode_type_length s.length → sign_extension_mask s.length = 0) := by
  have hmask0 : s.length = decode_type_length s.length → sign_extension_mask s.length = 0 := by
    intro hLN
    unfold sign_extension_mask
    rw [← hLN, Nat.sub_self]
    simp
  have hassign := foldl_assign_lines buffer s.name (decode_type_length s.length)
    (_signal_segments s true) (fun _ => 0)
  have hval : ((signal_decode_lines s).foldl (apply_decode_line buffer) (fun _ => 0)) s.name
      = if s.is_signed = true ∧ (decode_acc s buffer).testBit (s.length - 1)
        then decode_acc s buffer ||| sign_extension_mask s.length
        else decode_acc s buffer := by
    cases hs : s.is_signed with
    | false =>
      simp only [signal_decode_lines, hs, Bool.false_eq_true, if_false, List.append_nil]
      rw [hassign, Function.update_same]
      rw [if_neg (by simp)]
      rfl
    | true =>
      simp only [signal_decode_lines, hs, if_true]
      rw [List.foldl_append, hassign]
      simp only [List.foldl_cons, List.foldl_nil, apply_decode_line]
      rw [Function.update_same, Function.update_same]
      simp only [decode_acc]
      have hiff := and_one_shiftLeft_ne_zero
        ((_signal_segments s true).foldl
          (fun a g => (a ||| apply_shift g.2.1 ((buffer.getD g.1 0) &&& g.2.2))
            % 2 ^ decode_type_length s.length) 0) (s.length - 1)
      by_cases hbit : ((_signal_segments s true).foldl
          (fun a g => (a ||| apply_shift g.2.1 ((buffer.getD g.1 0) &&& g.2.2))
            % 2 ^ decode_type_length s.length) 0).testBit (s.length - 1)
      · rw [if_pos (hiff.mpr hbit), if_pos ⟨by trivial, hbit⟩]
      · rw [if_neg (fun hc => hbit (hiff.mp hc)), if_neg (fun hc => hbit hc.2)]
  exact ⟨hval, fun hs => by rw [hval, if_neg (by simp [hs])], hmask0⟩

/-- Witness for C5 at the signed 4-bit field sigS4 over one-byte buffers
holding patterns 1111 and 0111: the decoded member patterns read back as the
two's-complement values -1 and 7 of the 8-bit storage type. -/
theorem C5_sign_extension_witness :
    (1 ≤ sigS4.length ∧ sigS4.length ≤ 64)
    ∧ twos_complement 8
        (((signal_decode_lines sigS4).foldl (apply_decode_line [15]) (fun _ => 0)) sigS4.name)
      = -1
    ∧ twos_complement 8
        (((signal_decode_lines sigS4).foldl (apply_decode_line [7]) (fun _ => 0)) sigS4.name)
      = 7 := by
  refine ⟨⟨by decide, by decide⟩, ?_, ?_⟩
  · rw [(C5_sign_extension sigS4 [15] (by decide) (by decide)).1]
    decide
  · rw [(C5_sign_extension sigS4 [7] (by decide) (by decide)).1]
    decide

/-- C4: for every message, the generated encode function fails with the
(-EINVAL) error exactly when the destination capacity is below the message
byte length, producing no bytes in that case, and otherwise applies the
encode statements to the zero-filled region of message.length bytes and
returns that many bytes; the generated decode function fails the same way
when the source length argument is below the message byte length, writing
nothing to the record, and otherwise applies the decode statements to the
zero-filled record. -/
theorem C4_insufficient_buffer (m : Message) (record : String → Nat) (buffer : List Nat)
    (size : Nat) :
    (size < m.length →
      message_encode m record size = Except.error CodecError.einval
      ∧ message_decode m buffer size = Except.error CodecError.einval)
    ∧ (m.length ≤ size →
      message_encode m record size =
        Except.ok ((_format_encode_code m).foldl (apply_encode_line record)
          (List.replicate m.length 0))
      ∧ (∀ bytes, message_encode m record size = Except.ok bytes → bytes.length = m.length)
      ∧ message_decode m buffer size =
        Except.ok ((_format_decode_code m).foldl (apply_decode_line buffer) (fun _ => 0))) := by
  constructor
  · intro hlt
    unfold message_encode message_decode
    rw [if_pos hlt, if_pos hlt]
    exact ⟨rfl, rfl⟩
  · intro hge
    have hnlt : ¬ size < m.length := by omega
    unfold message_encode message_decode
    rw [if_neg hnlt, if_neg hnlt]
    refine ⟨rfl, ?_, rfl⟩
    intro bytes hb
    have hlen := foldl_encode_length record (_format_encode_code m) (List.replicate m.length 0)
    rw [List.length_replicate] at hlen
    injection hb with h
    rw [← h]
    exact hlen

/-- Witness for C4 at the two-byte example message: capacity or source
length 1 fails with the error and no output, capacity 2 encodes the two
bytes. -/
theorem C4_insufficient_buffer_witness :
    message_encode msg3 record3 1 = Except.error CodecError.einval
    ∧ message_decode msg3 [171] 1 = Except.error CodecError.einval
    ∧ message_encode msg3 record3 2 = Except.ok [171, 203]
    ∧ message_decode msg3 [171, 203] 2 =
        Except.ok ((_format_decode_code msg3).foldl (apply_decode_line [171, 203]) (fun _ => 0)) := by
  refine ⟨((C4_insufficient_buffer msg3 record3 [171] 1).1 (by decide)).1,
    ((C4_insufficient_buffer msg3 record3 [171] 1).1 (by decide)).2, ?_,
    ((C4_insufficient_buffer msg3 record3 [171, 203] 2).2 (by decide)).2.2⟩
  rw [((C4_insufficient_buffer msg3 record3 [171, 203] 2).2 (by decide)).1]
  decide

/-- C1: evaluation of the generated codec at a failing input for the
round-trip claim.  For the little-endian unsigned 12-bit field sigA12 the
final partial segment is emitted with shift pos (here << 0) instead of the
consumed-bits shift >> 8, so encoding the record holding pattern 0x100
produces the zero buffer and decoding it back yields 0, not 0x100: the
round-trip decode(encode(v)) = v fails although 0x100 is a representable
12-bit value of the uint16_t storage type. -/
theorem C1_roundtrip_failure :
    record12 sigA12.name = 256
    ∧ message_encode msg12 record12 2 = Except.ok [0, 0]
    ∧ (message_decode msg12 [0, 0] 2).map (fun r => r sigA12.name) = Except.ok 0
    ∧ (0 : Nat) ≠ 256 := by
  exact ⟨rfl, by decide, by decide, by decide⟩

/-- C2: evaluation at a message holding the float field sigF and the 8-bit
integer field sigG8.  The record keeps only the integer member and exactly
one diagnostic is printed for the float field, but _format_encode_code and
_format_decode_code never filter unsupported signals: both emit four
statements addressing the excluded float field, contradicting the claim
that codec operations exist only for retained fields. -/
theorem C2_codec_keeps_unsupported :
    struct_members msgFA = [{ is_signed := false, width := 8, name := sigG8.name }]
    ∧ signal_warnings msgFA = [float_warning]
    ∧ ((_format_encode_code msgFA).filter (fun l => l.signal_name == sigF.name)).length = 4
    ∧ ((_format_decode_code msgFA).filter
        (fun l => decode_line_signal l == sigF.name)).length = 4 := by
  exact ⟨by decide, rfl, by decide, by decide⟩

/-- C3 counterexample: encoding the example record a = 0x0AB, b = 0xC of the
two-byte message does not produce the bytes [0xAB, 0xCA] stated by the
claim (the code produces [0xAB, 0xCB]). -/
theorem C3_counterexample : message_encode msg3 record3 2 ≠ Except.ok [171, 202] := by
  decide

/-- C3 as amended: encoding the record a = 0x0AB, b = 0xC of the two-byte
example message produces the bytes [0xAB, 0xCB] (byte 1 also receives the
low nibble of a through the mis-shifted final segment), and decoding that
buffer reproduces the record values a = 0x0AB, b = 0xC. -/
theorem C3_example_message :
    record3 sigA3.name = 171
    ∧ record3 sigB3.name = 12
    ∧ message_encode msg3 record3 2 = Except.ok [171, 203]
    ∧ (message_decode msg3 [171, 203] 2).map (fun r => (r sigA3.name, r sigB3.name)) =
        Except.ok (171, 12) := by
  exact ⟨by decide, by decide, by decide, by decide⟩

/-- C8: evaluation at the little-endian 12-bit field sigA12 starting at bit
0.  Its second (final, partial) segment is emitted with encode shift << 0
(the shift variable is set to pos in the partial-segment branch), whereas
the claimed formula bit offset minus already-placed bits gives 0 - 8, the
right shift >> 8; the two differ, so the claimed shift characterization
fails on the code. -/
theorem C8_le_shift_drops_consumed :
    _signal_segments sigA12 false = [(0, ShiftOp.shl 0, 255), (1, ShiftOp.shl 0, 15)]
    ∧ format_shift false ((0 : Int) - 8) = ShiftOp.shr 8
    ∧ ShiftOp.shl 0 ≠ ShiftOp.shr 8 := by
  exact ⟨by decide, by decide, by decide⟩

/-- C9: evaluation at a message whose only field is the float field sigF.
Generation succeeds and the record has no members, with one diagnostic, but
the emitted codec is not empty: the encode and decode statement lists both
hold four statements for the excluded float field (and the encode function
still zero-fills and returns the four message bytes). -/
theorem C9_empty_record_nonempty_codec :
    struct_members msgF = []
    ∧ signal_warnings msgF = [float_warning]
    ∧ _format_encode_code msgF ≠ []
    ∧ _format_decode_code msgF ≠ []
    ∧ ((_format_encode_code msgF).filter (fun l => l.signal_name == sigF.name)).length = 4
    ∧ message_encode msgF (fun _ => 0) 4 = Except.ok [0, 0, 0, 0] := by
  exact ⟨rfl, rfl, by decide, by decide, by decide, by decide⟩
